import Mathlib

/-!
# Clause segmentation engine: shallow embedding and verification

This file embeds the clause segmentation engine of the document clause
extractor in Lean 4 and proves the specified properties about it.

The source has two nearly identical segmenters:
* `convert.py`, `process_text_pages` (lines 50-93), whose heading pattern is
  the regular expression `^\s*(\d+(?:\.\d+)*)\s+(.*)`;
* `streamlit_app.py`, `process_text_pages` (lines 105-148), whose heading
  pattern adds an optional trailing dot: `^\s*(\d+(?:\.\d+)*\.?)\s+(.*)`.
Both share every other line of logic, so the embedding is one generic
function `DocClause.runPages` parameterised by a Boolean `ad` ("allow dot"),
instantiated twice under the namespaces `Convert` and `StreamlitApp`.

Strings are modelled as `List Char`.  Python's `str.strip` and
`str.splitlines` and the relevant regular-expression semantics are embedded
directly; whitespace, digit and line-break character classes are modelled on
the code points that can occur here (Python additionally treats a few exotic
Unicode code points as whitespace/digits/line breaks; none is relevant to
the claims, and the embedding is internally consistent about the classes it
uses).

The depth classifier of `create_structured_word` (`streamlit_app.py`,
lines 62-63) is embedded as `StreamlitApp.level_of`.
-/

set_option maxHeartbeats 1600000

namespace DocClause

/-- Whitespace class of Python's `str.strip` and of `\s` in a `str` regular
expression, on the code points modelled here. -/
def isPySpace (c : Char) : Bool :=
  c == ' ' || c == '\t' || c == '\n' || c == '\x0b' || c == '\x0c' || c == '\r' ||
  c == '\x1c' || c == '\x1d' || c == '\x1e' || c == '\x85' || c == '\u2028' || c == '\u2029'

/-- Digit class of `\d` (ASCII decimal digits). -/
def isDigit (c : Char) : Bool :=
  '0' ≤ c && c ≤ '9'

/-- Python `str.strip()`: drop leading whitespace, then drop trailing
whitespace (implemented by reversing, dropping, and reversing back). -/
def strip (s : List Char) : List Char :=
  ((s.dropWhile isPySpace).reverse.dropWhile isPySpace).reverse

/-- Line-break class of Python's `str.splitlines` (single-character breaks;
the two-character break `"\r\n"` is handled in `splitlinesGo`). -/
def isLineBreak (c : Char) : Bool :=
  c == '\n' || c == '\r' || c == '\x0b' || c == '\x0c' ||
  c == '\x1c' || c == '\x1d' || c == '\x1e' || c == '\x85' || c == '\u2028' || c == '\u2029'

/-- Worker for `splitlines`: `acc` holds the current line reversed.  At a
break the accumulated line is emitted; `"\r\n"` counts as one break; at the
end of input a non-empty pending line is emitted (so a trailing break
produces no extra empty line, exactly as in Python). -/
def splitlinesGo : List Char → List Char → List (List Char)
  | [], acc => if acc.isEmpty then [] else [acc.reverse]
  | '\r' :: '\n' :: rest, acc => acc.reverse :: splitlinesGo rest []
  | c :: rest, acc =>
    if isLineBreak c then acc.reverse :: splitlinesGo rest []
    else splitlinesGo rest (c :: acc)

/-- Python `str.splitlines()`. -/
def splitlines (s : List Char) : List (List Char) :=
  splitlinesGo s []

/-- Matcher for the regex fragment `(?:\.\d+)*`, greedily consuming groups
"dot followed by a maximal non-empty digit run".  Returns the list of digit
runs (dots dropped) and the unconsumed remainder.  `fuel` makes the
recursion structural; every step consumes at least the dot, so
`fuel = s.length` (as used in `dotGroups`) never runs out. -/
def dotGroupsAux : Nat → List Char → List (List Char) × List Char
  | 0, s => ([], s)
  | fuel + 1, s =>
    match s with
    | '.' :: rest =>
      let g := rest.takeWhile isDigit
      if g.isEmpty then ([], s)
      else
        let p := dotGroupsAux fuel (rest.dropWhile isDigit)
        (g :: p.1, p.2)
    | _ => ([], s)

/-- `(?:\.\d+)*` with enough fuel for any input. -/
def dotGroups (s : List Char) : List (List Char) × List Char :=
  dotGroupsAux s.length s

/-- `re.match` of the heading pattern against `s`, returning
`some (group1, group2)` on success.  With `ad = false` the pattern is
`^\s*(\d+(?:\.\d+)*)\s+(.*)` (`convert.py` line 53); with `ad = true` it is
`^\s*(\d+(?:\.\d+)*\.?)\s+(.*)` (`streamlit_app.py` lines 46 and 108).

Greedy matching with backtracking reduces to maximal-munch here: shortening
the digit/dot prefix always leaves a digit or a dot (never whitespace) as
the next character, so no shorter parse of group 1 can satisfy the
following `\s+`; when the optional trailing dot is taken and `\s+` then
fails, the alternative without the dot fails as well, since a dot is not
whitespace.  `\s+` is greedy and `(.*)` matches any characters except
`'\n'`, so group 2 starts after the maximal whitespace run and stops at the
first `'\n'` (a successful `re.match` need not consume the whole string). -/
def matchClause (ad : Bool) (s : List Char) : Option (List Char × List Char) :=
  let s0 := s.dropWhile isPySpace
  let ds := s0.takeWhile isDigit
  if ds.isEmpty then none
  else
    let p := dotGroups (s0.dropWhile isDigit)
    let core := ds ++ (p.1.map (fun g => '.' :: g)).flatten
    let step : List Char × List Char :=
      if ad && (p.2.head? == some '.') then (core ++ ['.'], p.2.tail) else (core, p.2)
    if (step.2.takeWhile isPySpace).isEmpty then none
    else some (step.1, (step.2.dropWhile isPySpace).takeWhile (fun c => !(c == '\n')))

/-- Heading classification as performed by the segmenter: the line is
stripped and then tested against the clause pattern (a blank line never
matches, so the explicit blank-line skip in the source does not affect
classification). -/
def isHeading (ad : Bool) (line : List Char) : Bool :=
  (matchClause ad (strip line)).isSome

/-- One output record of `process_text_pages`: one row of the resulting
data frame, with its `clause_number`, `content` and `description` columns. -/
structure ClauseRow where
  clause_number : List Char
  content : List Char
  description : List Char
deriving DecidableEq

/-- Sealing the open clause, if any: `rows.append` of `clause_number =
`current_clause` and `content = current_text.strip()`, with the `description`
column (added once at the end in the source, uniformly `""`) inlined. -/
def sealRow : Option (List Char) → List Char → List ClauseRow
  | none, _ => []
  | some ident, t => [⟨ident, strip t, []⟩]

/-- The inner loop of `process_text_pages` over the lines of one page:
threads `current_clause`/`current_text` and returns the final state
together with the rows emitted, in order.  Branches, in source order:
skip blank lines; on a heading line seal the open clause (if any) and open
a new one from the captured groups; on any other line append
`" " + line` to the open clause's text, or discard the line when no clause
is open. -/
def runLines (ad : Bool) : Option (List Char) → List Char → List (List Char) →
    (Option (List Char) × List Char) × List ClauseRow
  | c, t, [] => ((c, t), [])
  | c, t, line :: rest =>
    let l := strip line
    if l.isEmpty then runLines ad c t rest
    else
      match matchClause ad l with
      | some (ident, inline) =>
        let r := runLines ad (some ident) inline rest
        (r.1, sealRow c t ++ r.2)
      | none =>
        match c with
        | some i => runLines ad (some i) (t ++ ' ' :: l) rest
        | none => runLines ad none t rest

/-- The outer loop of `process_text_pages` over pages: each page is split
into lines and fed to the inner loop, the state carrying over from page to
page with no reset. -/
def runPages (ad : Bool) : Option (List Char) → List Char → List (List Char) →
    (Option (List Char) × List Char) × List ClauseRow
  | c, t, [] => ((c, t), [])
  | c, t, page :: rest =>
    let r1 := runLines ad c t (splitlines page)
    let r2 := runPages ad r1.1.1 r1.1.2 rest
    (r2.1, r1.2 ++ r2.2)

/-- `process_text_pages(text_pages)`: run over all pages from the initial
state (`current_clause = None`, `current_text = ""`), then seal the last
open clause, if any. -/
def processPages (ad : Bool) (pages : List (List Char)) : List ClauseRow :=
  let r := runPages ad none [] pages
  r.2 ++ sealRow r.1.1 r.1.2

/-- The same engine on a bare stream of lines (no page structure); used to
state cross-page behaviour. -/
def processStream (ad : Bool) (lines : List (List Char)) : List ClauseRow :=
  let r := runLines ad none [] lines
  r.2 ++ sealRow r.1.1 r.1.2

/-- The full line stream of an input: pages split into lines, concatenated
in page order. -/
def allLines (pages : List (List Char)) : List (List Char) :=
  (pages.map splitlines).flatten

/-- Re-feeding a content value as a single continuation line of a freshly
opened clause (open identifier `ident`, empty accumulated text) and
resealing: the harness for the identity-transform property. -/
def refeedOnce (ad : Bool) (ident : List Char) (content : List Char) : List ClauseRow :=
  let r := runLines ad (some ident) [] [content]
  r.2 ++ sealRow r.1.1 r.1.2

/-- The identifiers of the heading lines of a stream, in encounter order. -/
def headingIds (ad : Bool) (lines : List (List Char)) : List (List Char) :=
  lines.filterMap (fun l => (matchClause ad (strip l)).map Prod.fst)

/-- A (trimmed) line starts with dot-separated digit groups followed by a
trailing dot and then whitespace — exactly the lines on which the two
heading patterns disagree. -/
def trailingDotHeading (s : List Char) : Bool :=
  let s0 := s.dropWhile isPySpace
  let ds := s0.takeWhile isDigit
  if ds.isEmpty then false
  else
    let q2 := (dotGroups (s0.dropWhile isDigit)).2
    (q2.head? == some '.') && !(q2.tail.takeWhile isPySpace).isEmpty

/-- A non-empty run of digits. -/
def digitGroup (g : List Char) : Prop :=
  g ≠ [] ∧ ∀ c ∈ g, isDigit c = true

/-- Modelled from the spec (§4.1 heading rule): the trimmed line consists of
one or more dot-separated groups of digits, optionally followed by a single
trailing dot, then at least one whitespace character, then a remainder. -/
def headingShapeSpec (s : List Char) : Prop :=
  ∃ (g : List Char) (gs : List (List Char)) (hasDot : Bool) (w rest : List Char),
    digitGroup g ∧ (∀ h ∈ gs, digitGroup h) ∧
    w ≠ [] ∧ (∀ c ∈ w, isPySpace c = true) ∧
    s = g ++ (gs.map (fun h => '.' :: h)).flatten ++
        (if hasDot then ['.'] else ([] : List Char)) ++ w ++ rest

/-- Modelled from the spec (§4.2): `count_of_dot_separators(identifier)`,
the number of dot characters of the identifier string. -/
def count_of_dot_separators (s : List Char) : Nat :=
  s.countP (fun c => c == '.')

/-- The first element (if any) of `l` fails `p`. -/
def headFails (p : Char → Bool) (l : List Char) : Prop :=
  ∀ a t, l = a :: t → p a = false

/-- Well-formedness of a captured clause identifier: non-empty, starting
with a digit, made of digits and dots only. -/
def identOK (i : List Char) : Prop :=
  i ≠ [] ∧ (∀ h, i.head? = some h → isDigit h = true) ∧
    ∀ c ∈ i, isDigit c = true ∨ c = '.'

/-- Well-formedness of an emitted record: well-formed identifier, trimmed
newline-free content, empty description. -/
def rowOK (r : ClauseRow) : Prop :=
  identOK r.clause_number ∧ strip r.content = r.content ∧
    ('\n' ∉ r.content) ∧ r.description = []

end DocClause

namespace Convert

open DocClause

/-- `convert.py`, `process_text_pages` (lines 50-93): heading pattern
without the optional trailing dot. -/
def process_text_pages (pages : List (List Char)) : List ClauseRow :=
  DocClause.processPages false pages

end Convert

namespace StreamlitApp

open DocClause

/-- `streamlit_app.py`, `process_text_pages` (lines 105-148): heading
pattern with the optional trailing dot. -/
def process_text_pages (pages : List (List Char)) : List ClauseRow :=
  DocClause.processPages true pages

/-- `streamlit_app.py`, `create_structured_word` (lines 62-63): the nesting
level of a captured clause identifier,
`level = clause_number.count(".") + 1; level = min(level, 4)`. -/
def level_of (clause_number : List Char) : Nat :=
  min (clause_number.countP (fun c => c == '.') + 1) 4

end StreamlitApp

/-! ## Helper lemmas: character classes, `takeWhile`/`dropWhile`, `strip`,
`splitlines` -/

namespace DocClause

theorem space_not_digit (c : Char) (h : isPySpace c = true) : isDigit c = false := by
  simp only [isPySpace, Bool.or_eq_true, beq_iff_eq] at h
  rcases h with ((((((((((h | h) | h) | h) | h) | h) | h) | h) | h) | h) | h) | h <;>
    rw [h] <;> decide

theorem digit_not_space (c : Char) (h : isDigit c = true) : isPySpace c = false := by
  by_cases hs : isPySpace c = true
  · rw [space_not_digit c hs] at h; cases h
  · exact Bool.not_eq_true _ |>.mp hs

theorem dot_not_digit : isDigit '.' = false := by decide

theorem dot_not_space : isPySpace '.' = false := by decide

theorem headFails_nil (p : Char → Bool) : headFails p [] := by
  intro a t h; cases h

theorem headFails_dropWhile (p : Char → Bool) (l : List Char) :
    headFails p (l.dropWhile p) := by
  induction l with
  | nil => exact headFails_nil p
  | cons x xs ih =>
    intro a t h
    rw [List.dropWhile_cons] at h
    by_cases hx : p x = true
    · rw [if_pos hx] at h; exact ih a t h
    · rw [if_neg hx] at h
      cases h
      exact Bool.not_eq_true _ |>.mp hx

theorem dropWhile_eq_self_of_headFails (p : Char → Bool) (l : List Char)
    (h : headFails p l) : l.dropWhile p = l := by
  cases l with
  | nil => rfl
  | cons x xs => rw [List.dropWhile_cons, if_neg (by rw [h x xs rfl]; simp)]

theorem takeWhile_eq_nil_of_headFails (p : Char → Bool) (l : List Char)
    (h : headFails p l) : l.takeWhile p = [] := by
  cases l with
  | nil => rfl
  | cons x xs => rw [List.takeWhile_cons, if_neg (by rw [h x xs rfl]; simp)]

theorem dropWhile_suffix (p : Char → Bool) (l : List Char) :
    ∃ t, l = t ++ l.dropWhile p := by
  induction l with
  | nil => exact ⟨[], rfl⟩
  | cons x xs ih =>
    rw [List.dropWhile_cons]
    by_cases hx : p x = true
    · obtain ⟨t, ht⟩ := ih
      exact ⟨x :: t, by rw [if_pos hx]; simpa using ht⟩
    · exact ⟨[], by rw [if_neg hx]; simp⟩

theorem headFails_reverse_dropWhile (p : Char → Bool) (l : List Char)
    (h : headFails p l.reverse) : headFails p (l.dropWhile p).reverse := by
  obtain ⟨t, ht⟩ := dropWhile_suffix p l
  intro a u hu
  apply h a ((l.dropWhile p).reverse.tail ++ t.reverse)
  conv_lhs => rw [ht]
  rw [List.reverse_append, hu]
  simp

/-- `takeWhile` over an append whose left part satisfies `p` throughout and
whose right part starts (if at all) with a failing element. -/
theorem takeWhile_app (p : Char → Bool) (xs ys : List Char)
    (h1 : ∀ x ∈ xs, p x = true) (h2 : headFails p ys) :
    (xs ++ ys).takeWhile p = xs := by
  induction xs with
  | nil => exact takeWhile_eq_nil_of_headFails p ys h2
  | cons x xs ih =>
    rw [List.cons_append, List.takeWhile_cons, if_pos (h1 x (by simp)),
      ih (fun y hy => h1 y (by simp [hy]))]

theorem dropWhile_app (p : Char → Bool) (xs ys : List Char)
    (h1 : ∀ x ∈ xs, p x = true) (h2 : headFails p ys) :
    (xs ++ ys).dropWhile p = ys := by
  induction xs with
  | nil => exact dropWhile_eq_self_of_headFails p ys h2
  | cons x xs ih =>
    rw [List.cons_append, List.dropWhile_cons, if_pos (h1 x (by simp)),
      ih (fun y hy => h1 y (by simp [hy]))]

theorem headFails_strip (s : List Char) : headFails isPySpace (strip s) :=
  headFails_reverse_dropWhile isPySpace (s.dropWhile isPySpace).reverse
    (by rw [List.reverse_reverse]; exact headFails_dropWhile isPySpace s)

theorem reverse_strip (s : List Char) :
    (strip s).reverse = (s.dropWhile isPySpace).reverse.dropWhile isPySpace := by
  simp [strip]

theorem headFails_reverse_strip (s : List Char) :
    headFails isPySpace (strip s).reverse := by
  rw [reverse_strip]
  exact headFails_dropWhile isPySpace _

theorem dropWhile_strip (s : List Char) :
    (strip s).dropWhile isPySpace = strip s :=
  dropWhile_eq_self_of_headFails isPySpace _ (headFails_strip s)

theorem strip_strip (s : List Char) : strip (strip s) = strip s := by
  show (((strip s).dropWhile isPySpace).reverse.dropWhile isPySpace).reverse = strip s
  rw [dropWhile_strip s, reverse_strip s,
    dropWhile_eq_self_of_headFails isPySpace _ (headFails_dropWhile isPySpace _),
    ← reverse_strip s, List.reverse_reverse]

theorem strip_space_cons (s : List Char) : strip (' ' :: s) = strip s := by
  unfold strip
  rw [List.dropWhile_cons, if_pos (by decide)]

theorem mem_strip (s : List Char) (a : Char) (h : a ∈ strip s) : a ∈ s := by
  unfold strip at h
  rw [List.mem_reverse] at h
  have h2 := (List.dropWhile_sublist isPySpace).mem h
  rw [List.mem_reverse] at h2
  exact (List.dropWhile_sublist isPySpace).mem h2

theorem splitlinesGo_no_break (s acc : List Char) :
    (∀ c ∈ acc, isLineBreak c = false) →
    ∀ l ∈ splitlinesGo s acc, ∀ c ∈ l, isLineBreak c = false := by
  induction s, acc using splitlinesGo.induct <;>
    intro hacc <;> simp_all [splitlinesGo] <;> assumption

theorem mem_splitlines_no_break (s : List Char) (l : List Char) (hl : l ∈ splitlines s) :
    ∀ c ∈ l, isLineBreak c = false :=
  splitlinesGo_no_break s [] (by simp) l hl

end DocClause

namespace DocClause

theorem dotGroupsAux_not_dot (fuel : Nat) (s : List Char)
    (hs : ∀ rest, s = '.' :: rest → False) :
    dotGroupsAux fuel s = ([], s) := by
  cases fuel with
  | zero => rfl
  | succ fuel =>
    cases s with
    | nil => rw [dotGroupsAux.eq_def]
    | cons c rest =>
      rw [dotGroupsAux.eq_def]
      simp only

theorem dotGroupsAux_spec (fuel : Nat) (s : List Char) : s.length ≤ fuel →
    s = ((dotGroupsAux fuel s).1.map (fun g => '.' :: g)).flatten ++ (dotGroupsAux fuel s).2 ∧
    (∀ g ∈ (dotGroupsAux fuel s).1, digitGroup g) ∧
    (∀ rest, (dotGroupsAux fuel s).2 = '.' :: rest → rest.takeWhile isDigit = []) := by
  induction fuel, s using dotGroupsAux.induct with
  | case1 s =>
    intro hlen
    have : s = [] := List.length_eq_zero.mp (Nat.le_zero.mp hlen)
    subst this
    refine ⟨rfl, by simp [dotGroupsAux], ?_⟩
    intro rest h
    simp [dotGroupsAux] at h
  | case2 fuel rest g hg =>
    intro _
    have hg' : (rest.takeWhile isDigit).isEmpty = true := hg
    rw [show dotGroupsAux (fuel + 1) ('.' :: rest) = ([], '.' :: rest) by
      simp [dotGroupsAux, hg']]
    refine ⟨by simp, by simp, ?_⟩
    intro rest2 h
    simp only [Prod.snd] at h
    cases h
    exact List.isEmpty_iff.mp hg'
  | case3 fuel rest g hg ih =>
    intro hlen
    have hg' : ¬(rest.takeWhile isDigit).isEmpty = true := hg
    have hlen2 : (rest.dropWhile isDigit).length ≤ fuel := by
      have := (List.dropWhile_sublist isDigit (l := rest)).length_le
      simp at hlen
      omega
    obtain ⟨ih1, ih2, ih3⟩ := ih hlen2
    rw [show dotGroupsAux (fuel + 1) ('.' :: rest) =
        (rest.takeWhile isDigit :: (dotGroupsAux fuel (rest.dropWhile isDigit)).1,
         (dotGroupsAux fuel (rest.dropWhile isDigit)).2) by
      simp [dotGroupsAux, hg']]
    refine ⟨?_, ?_, ih3⟩
    · simp only [List.map_cons, List.flatten_cons, List.cons_append, List.append_assoc]
      rw [← ih1]
      rw [List.takeWhile_append_dropWhile]
    · intro g2 hgmem
      rcases List.mem_cons.mp hgmem with h | h
      · subst h
        constructor
        · intro hnil; rw [hnil] at hg'; simp at hg'
        · intro c hc; exact List.mem_takeWhile_imp hc
      · exact ih2 g2 h
  | case4 fuel s hs =>
    intro _
    rw [dotGroupsAux_not_dot (fuel + 1) s (fun rest h => hs rest h)]
    refine ⟨by simp, by simp, ?_⟩
    intro rest h
    simp only at h
    exact absurd h (by intro hh; exact hs rest hh)


theorem dotGroupsAux_no_group (fuel : Nat) (r : List Char)
    (hr : ∀ rest, r = '.' :: rest → rest.takeWhile isDigit = []) :
    dotGroupsAux fuel r = ([], r) := by
  cases fuel with
  | zero => rfl
  | succ fuel =>
    cases r with
    | nil => rw [dotGroupsAux.eq_def]
    | cons c rest =>
      by_cases hc : c = '.'
      · subst hc
        have h1 : rest.takeWhile isDigit = [] := hr rest rfl
        rw [dotGroupsAux.eq_def]
        simp [h1]
      · exact dotGroupsAux_not_dot (fuel + 1) (c :: rest)
          (fun rest2 h => hc (by injection h))

theorem flatten_headFails_isDigit (gs : List (List Char)) (r : List Char)
    (hr : headFails isDigit r) :
    headFails isDigit ((gs.map (fun g => '.' :: g)).flatten ++ r) := by
  cases gs with
  | nil => simpa using hr
  | cons g gs' =>
    intro a t h
    simp only [List.map_cons, List.flatten_cons, List.cons_append, List.append_assoc] at h
    injection h with h1 _
    rw [← h1]
    exact dot_not_digit

theorem dotGroupsAux_complete (gs : List (List Char)) : ∀ (fuel : Nat) (r : List Char),
    (∀ g ∈ gs, digitGroup g) →
    headFails isDigit r →
    (∀ rest, r = '.' :: rest → rest.takeWhile isDigit = []) →
    ((gs.map (fun g => '.' :: g)).flatten ++ r).length ≤ fuel →
    dotGroupsAux fuel ((gs.map (fun g => '.' :: g)).flatten ++ r) = (gs, r) := by
  induction gs with
  | nil =>
    intro fuel r _ _ hr _
    simpa using dotGroupsAux_no_group fuel r hr
  | cons g gs' ih =>
    intro fuel r hgs hfr hr hlen
    have hgd : digitGroup g := hgs g (by simp)
    have hflat : (((g :: gs').map (fun h => '.' :: h)).flatten ++ r) =
        '.' :: (g ++ (((gs'.map (fun h => '.' :: h)).flatten) ++ r)) := by
      simp [List.append_assoc]
    rw [hflat] at hlen ⊢
    cases fuel with
    | zero => simp at hlen
    | succ fuel =>
      have htf : headFails isDigit ((gs'.map (fun h => '.' :: h)).flatten ++ r) :=
        flatten_headFails_isDigit gs' r hfr
      have htake : (g ++ ((gs'.map (fun h => '.' :: h)).flatten ++ r)).takeWhile isDigit = g :=
        takeWhile_app isDigit g _ hgd.2 htf
      have hdrop : (g ++ ((gs'.map (fun h => '.' :: h)).flatten ++ r)).dropWhile isDigit =
          (gs'.map (fun h => '.' :: h)).flatten ++ r :=
        dropWhile_app isDigit g _ hgd.2 htf
      have hlen2 : ((gs'.map (fun h => '.' :: h)).flatten ++ r).length ≤ fuel := by
        simp at hlen
        have : 1 ≤ g.length := by
          cases g with
          | nil => exact absurd rfl hgd.1
          | cons _ _ => simp
        simp
        omega
      have hne : ¬(g.isEmpty = true) := by
        cases g with
        | nil => exact absurd rfl hgd.1
        | cons _ _ => simp
      rw [dotGroupsAux.eq_def]
      simp only [htake, hdrop]
      rw [if_neg hne]
      rw [ih fuel r (fun g2 h2 => hgs g2 (by simp [h2])) hfr hr hlen2]


theorem dotGroups_spec (s : List Char) :
    s = ((dotGroups s).1.map (fun g => '.' :: g)).flatten ++ (dotGroups s).2 ∧
    (∀ g ∈ (dotGroups s).1, digitGroup g) ∧
    (∀ rest, (dotGroups s).2 = '.' :: rest → rest.takeWhile isDigit = []) :=
  dotGroupsAux_spec s.length s (Nat.le_refl _)

theorem dotGroups_complete (gs : List (List Char)) (r : List Char)
    (h1 : ∀ g ∈ gs, digitGroup g) (h2 : headFails isDigit r)
    (h3 : ∀ rest, r = '.' :: rest → rest.takeWhile isDigit = []) :
    dotGroups ((gs.map (fun g => '.' :: g)).flatten ++ r) = (gs, r) :=
  dotGroupsAux_complete gs _ r h1 h2 h3 (Nat.le_refl _)


theorem matchClause_isSome_shape (ad : Bool) (s : List Char)
    (hs : s.dropWhile isPySpace = s)
    (h : (matchClause ad s).isSome = true) : headingShapeSpec s := by
  obtain ⟨hshape, hgroups, hnomore⟩ := dotGroups_spec (s.dropWhile isDigit)
  simp only [matchClause, hs] at h
  by_cases hds : ((s.takeWhile isDigit).isEmpty = true)
  · rw [if_pos hds] at h; simp at h
  · rw [if_neg hds] at h
    have hdsne : s.takeWhile isDigit ≠ [] := fun hnil => hds (by rw [hnil]; rfl)
    have hdg : digitGroup (s.takeWhile isDigit) :=
      ⟨hdsne, fun c hc => List.mem_takeWhile_imp hc⟩
    have hsplit : s = s.takeWhile isDigit ++ s.dropWhile isDigit :=
      (List.takeWhile_append_dropWhile isDigit s).symm
    by_cases had : (ad && ((dotGroups (s.dropWhile isDigit)).2.head? == some '.')) = true
    · rw [if_pos had] at h
      have had2 : (dotGroups (s.dropWhile isDigit)).2.head? = some '.' := by
        have := (Bool.and_eq_true _ _).mp had |>.2
        exact beq_iff_eq.mp this
      obtain ⟨r, hq2⟩ : ∃ r, (dotGroups (s.dropWhile isDigit)).2 = '.' :: r := by
        rcases hq : (dotGroups (s.dropWhile isDigit)).2 with _ | ⟨c, r⟩
        · rw [hq] at had2; simp at had2
        · rw [hq] at had2; simp at had2; exact ⟨r, by rw [had2]⟩
      rw [hq2] at h
      simp only [List.tail_cons] at h
      by_cases hws : ((r.takeWhile isPySpace).isEmpty = true)
      · rw [if_pos hws] at h; simp at h
      · refine ⟨s.takeWhile isDigit, (dotGroups (s.dropWhile isDigit)).1, true,
          r.takeWhile isPySpace, r.dropWhile isPySpace, hdg, hgroups, ?_, ?_, ?_⟩
        · intro hnil; rw [hnil] at hws; exact hws rfl
        · intro cc hcc; exact List.mem_takeWhile_imp hcc
        · rw [if_pos rfl]
          conv_lhs => rw [hsplit, hshape, hq2]
          rw [← List.takeWhile_append_dropWhile isPySpace r]
          simp [List.append_assoc]
    · rw [if_neg had] at h
      by_cases hws : (((dotGroups (s.dropWhile isDigit)).2.takeWhile isPySpace).isEmpty = true)
      · rw [if_pos hws] at h; simp at h
      · refine ⟨s.takeWhile isDigit, (dotGroups (s.dropWhile isDigit)).1, false,
          (dotGroups (s.dropWhile isDigit)).2.takeWhile isPySpace,
          (dotGroups (s.dropWhile isDigit)).2.dropWhile isPySpace, hdg, hgroups, ?_, ?_, ?_⟩
        · intro hnil; rw [hnil] at hws; exact hws rfl
        · intro cc hcc; exact List.mem_takeWhile_imp hcc
        · rw [if_neg (by simp)]
          conv_lhs => rw [hsplit, hshape]
          rw [← List.takeWhile_append_dropWhile isPySpace ((dotGroups (s.dropWhile isDigit)).2)]
          simp [List.append_assoc]


theorem shape_matchClause_true (s : List Char) (h : headingShapeSpec s) :
    (matchClause true s).isSome = true := by
  obtain ⟨g, gs, hasDot, w, rest, hg, hgs, hw, hwsp, hdecomp⟩ := h
  obtain ⟨wc, w', hwc⟩ : ∃ wc w', w = wc :: w' := by
    cases w with
    | nil => exact absurd rfl hw
    | cons wc w' => exact ⟨wc, w', rfl⟩
  have hwcsp : isPySpace wc = true := hwsp wc (by rw [hwc]; simp)
  have hwcnd : isDigit wc = false := space_not_digit wc hwcsp
  have hwcdot : ¬(wc = '.') := by
    intro hh; rw [hh] at hwcsp; exact absurd hwcsp (by rw [dot_not_space]; simp)
  have hdecomp2 : s = g ++ (((gs.map (fun h => '.' :: h)).flatten) ++
      ((if hasDot then ['.'] else ([] : List Char)) ++ (w ++ rest))) := by
    rw [hdecomp]; simp [List.append_assoc]
  have hr_digit : headFails isDigit ((if hasDot then ['.'] else ([] : List Char)) ++ (w ++ rest)) := by
    cases hasDot with
    | true =>
      intro a t ha
      rw [if_pos rfl] at ha
      injection ha with h1 h2
      rw [← h1]; exact dot_not_digit
    | false =>
      intro a t ha
      rw [if_neg (by simp), hwc] at ha
      injection ha with h1 h2
      rw [← h1]; exact hwcnd
  have hFr : headFails isDigit (((gs.map (fun h => '.' :: h)).flatten) ++
      ((if hasDot then ['.'] else ([] : List Char)) ++ (w ++ rest))) :=
    flatten_headFails_isDigit gs _ hr_digit
  have htake : s.takeWhile isDigit = g := by
    rw [hdecomp2]; exact takeWhile_app _ g _ hg.2 hFr
  have hdrop : s.dropWhile isDigit = ((gs.map (fun h => '.' :: h)).flatten) ++
      ((if hasDot then ['.'] else ([] : List Char)) ++ (w ++ rest)) := by
    rw [hdecomp2]; exact dropWhile_app _ g _ hg.2 hFr
  have hs0 : s.dropWhile isPySpace = s := by
    apply dropWhile_eq_self_of_headFails
    intro a t ha
    obtain ⟨gc, g', hgc⟩ : ∃ gc g', g = gc :: g' := by
      cases g with
      | nil => exact absurd rfl hg.1
      | cons gc g' => exact ⟨gc, g', rfl⟩
    rw [hdecomp2, hgc] at ha
    injection ha with h1 h2
    rw [← h1]
    exact digit_not_space gc (hg.2 gc (by rw [hgc]; simp))
  have hnomore : ∀ rest2, ((if hasDot then ['.'] else ([] : List Char)) ++ (w ++ rest)) =
      '.' :: rest2 → rest2.takeWhile isDigit = [] := by
    cases hasDot with
    | true =>
      intro rest2 hh
      rw [if_pos rfl] at hh
      injection hh with h1 h2
      rw [← h2, hwc]
      simp only [List.append_eq, List.nil_append, List.cons_append]
      rw [List.takeWhile_cons, if_neg (by rw [hwcnd]; simp)]
    | false =>
      intro rest2 hh
      rw [if_neg (by simp), hwc, List.cons_append] at hh
      injection hh with h1 h2
      exact absurd h1 hwcdot
  have hdg2 : dotGroups (s.dropWhile isDigit) = (gs,
      (if hasDot then ['.'] else ([] : List Char)) ++ (w ++ rest)) := by
    rw [hdrop]; exact dotGroups_complete gs _ hgs hr_digit hnomore
  have hgne : ¬((s.takeWhile isDigit).isEmpty = true) := by
    rw [htake]
    cases g with
    | nil => exact absurd rfl hg.1
    | cons gc g' => simp
  simp only [matchClause, hs0]
  rw [if_neg hgne, hdg2]
  cases hasDot with
  | true =>
    rw [if_pos (show (true = true) from rfl), hwc]
    simp only [List.append_eq, List.nil_append, List.cons_append, List.head?_cons,
      List.tail_cons]
    have hcond : (true && ((some '.' : Option Char) == some '.')) = true := by simp
    rw [if_pos hcond]
    have htw : (wc :: (w' ++ rest)).takeWhile isPySpace =
        wc :: (w' ++ rest).takeWhile isPySpace := by
      rw [List.takeWhile_cons, if_pos hwcsp]
    rw [htw]
    simp
  | false =>
    rw [if_neg (show ¬(false = true) by simp), hwc]
    simp only [List.append_eq, List.nil_append, List.cons_append, List.head?_cons,
      List.tail_cons]
    have hcond : (true && ((some wc : Option Char) == some '.')) = false := by
      simp [hwcdot]
    rw [if_neg (show ¬((true && ((some wc : Option Char) == some '.')) = true) by
      rw [hcond]; simp)]
    have htw : (wc :: (w' ++ rest)).takeWhile isPySpace =
        wc :: (w' ++ rest).takeWhile isPySpace := by
      rw [List.takeWhile_cons, if_pos hwcsp]
    rw [htw]
    simp


theorem runLines_nil (ad : Bool) (c : Option (List Char)) (t : List Char) :
    runLines ad c t [] = ((c, t), []) := rfl

theorem runLines_cons (ad : Bool) (c : Option (List Char)) (t : List Char)
    (line : List Char) (rest : List (List Char)) :
    runLines ad c t (line :: rest) =
      if (strip line).isEmpty = true then runLines ad c t rest
      else
        match matchClause ad (strip line) with
        | some (ident, inline) =>
          ((runLines ad (some ident) inline rest).1,
            sealRow c t ++ (runLines ad (some ident) inline rest).2)
        | none =>
          match c with
          | some i => runLines ad (some i) (t ++ ' ' :: strip line) rest
          | none => runLines ad none t rest := rfl

theorem runLines_append (ad : Bool) (xs ys : List (List Char)) :
    ∀ (c : Option (List Char)) (t : List Char),
    runLines ad c t (xs ++ ys) =
      ((runLines ad (runLines ad c t xs).1.1 (runLines ad c t xs).1.2 ys).1,
       (runLines ad c t xs).2 ++
         (runLines ad (runLines ad c t xs).1.1 (runLines ad c t xs).1.2 ys).2) := by
  induction xs with
  | nil => intro c t; simp [runLines_nil]
  | cons line rest ih =>
    intro c t
    rw [List.cons_append, runLines_cons, runLines_cons]
    by_cases hb : ((strip line).isEmpty = true)
    · rw [if_pos hb, if_pos hb]
      exact ih c t
    · rw [if_neg hb, if_neg hb]
      rcases hm : matchClause ad (strip line) with _ | ⟨ident, inline⟩
      · simp only [hm]
        cases c with
        | none => exact ih none t
        | some i => exact ih (some i) (t ++ ' ' :: strip line)
      · simp only [hm]
        rw [ih ident inline]
        simp [List.append_assoc]


theorem runPages_cons (ad : Bool) (c : Option (List Char)) (t : List Char)
    (page : List Char) (rest : List (List Char)) :
    runPages ad c t (page :: rest) =
      ((runPages ad (runLines ad c t (splitlines page)).1.1
          (runLines ad c t (splitlines page)).1.2 rest).1,
       (runLines ad c t (splitlines page)).2 ++
         (runPages ad (runLines ad c t (splitlines page)).1.1
           (runLines ad c t (splitlines page)).1.2 rest).2) := rfl

theorem allLines_cons (page : List Char) (rest : List (List Char)) :
    allLines (page :: rest) = splitlines page ++ allLines rest := by
  simp [allLines]

theorem runPages_eq_runLines (ad : Bool) (pages : List (List Char)) :
    ∀ (c : Option (List Char)) (t : List Char),
    runPages ad c t pages = runLines ad c t (allLines pages) := by
  induction pages with
  | nil => intro c t; simp [runPages, allLines, runLines_nil]
  | cons page rest ih =>
    intro c t
    rw [allLines_cons, runLines_append, runPages_cons,
      ih (runLines ad c t (splitlines page)).1.1 (runLines ad c t (splitlines page)).1.2]

theorem processPages_eq_processStream (ad : Bool) (pages : List (List Char)) :
    processPages ad pages = processStream ad (allLines pages) := by
  simp only [processPages, processStream, runPages_eq_runLines]

theorem matchClause_of_blank (ad : Bool) (l : List Char)
    (h : (strip l).isEmpty = true) : matchClause ad (strip l) = none := by
  rw [List.isEmpty_iff.mp h]
  rfl

theorem runLines_no_heading (ad : Bool) (lines : List (List Char)) :
    ∀ (t : List Char), (∀ l ∈ lines, matchClause ad (strip l) = none) →
    runLines ad none t lines = ((none, t), []) := by
  induction lines with
  | nil => intro t _; rfl
  | cons line rest ih =>
    intro t h
    rw [runLines_cons]
    by_cases hb : ((strip line).isEmpty = true)
    · rw [if_pos hb]
      exact ih t (fun l hl => h l (by simp [hl]))
    · rw [if_neg hb]
      simp only [h line (by simp)]
      exact ih t (fun l hl => h l (by simp [hl]))

theorem runLines_filter_blank (ad : Bool) (lines : List (List Char)) :
    ∀ (c : Option (List Char)) (t : List Char),
    runLines ad c t lines =
      runLines ad c t (lines.filter (fun l => !(strip l).isEmpty)) := by
  induction lines with
  | nil => intro c t; rfl
  | cons line rest ih =>
    intro c t
    rw [runLines_cons]
    by_cases hb : ((strip line).isEmpty = true)
    · rw [if_pos hb, List.filter_cons_of_neg (by simp [hb])]
      exact ih c t
    · rw [if_neg hb, List.filter_cons_of_pos (by simp [hb]), runLines_cons, if_neg hb]
      rcases hm : matchClause ad (strip line) with _ | ⟨ident, inline⟩
      · simp only [hm]
        cases c with
        | none => exact ih none t
        | some i => exact ih (some i) (t ++ ' ' :: strip line)
      · simp only [hm]
        rw [ih ident inline]

theorem runLines_congr (a b : Bool) (lines : List (List Char))
    (h : ∀ l ∈ lines, matchClause a (strip l) = matchClause b (strip l)) :
    ∀ (c : Option (List Char)) (t : List Char),
    runLines a c t lines = runLines b c t lines := by
  induction lines with
  | nil => intro c t; rfl
  | cons line rest ih =>
    intro c t
    have hrest : ∀ l ∈ rest, matchClause a (strip l) = matchClause b (strip l) :=
      fun l hl => h l (by simp [hl])
    rw [runLines_cons, runLines_cons]
    by_cases hb : ((strip line).isEmpty = true)
    · rw [if_pos hb, if_pos hb]
      exact ih hrest c t
    · rw [if_neg hb, if_neg hb, ← h line (by simp)]
      rcases hm : matchClause a (strip line) with _ | ⟨ident, inline⟩
      · simp only [hm]
        cases c with
        | none => exact ih hrest none t
        | some i => exact ih hrest (some i) (t ++ ' ' :: strip line)
      · simp only [hm]
        rw [ih hrest ident inline]

theorem sealRow_ids (c : Option (List Char)) (t : List Char) :
    (sealRow c t).map (fun r => r.clause_number) = c.toList := by
  cases c <;> rfl

theorem ids_runLines (ad : Bool) (lines : List (List Char)) :
    ∀ (c : Option (List Char)) (t : List Char),
    ((runLines ad c t lines).2 ++
      sealRow (runLines ad c t lines).1.1 (runLines ad c t lines).1.2).map
        (fun r => r.clause_number) = c.toList ++ headingIds ad lines := by
  induction lines with
  | nil => intro c t; simp [runLines_nil, headingIds, sealRow_ids]
  | cons line rest ih =>
    intro c t
    rw [runLines_cons]
    by_cases hb : ((strip line).isEmpty = true)
    · rw [if_pos hb]
      rw [ih c t]
      simp [headingIds, List.filterMap_cons, matchClause_of_blank ad line hb]
    · rw [if_neg hb]
      rcases hm : matchClause ad (strip line) with _ | ⟨ident, inline⟩
      · simp only [hm]
        have hh : headingIds ad (line :: rest) = headingIds ad rest := by
          simp [headingIds, List.filterMap_cons, hm]
        rw [hh]
        cases c with
        | none => exact ih none t
        | some i => exact ih (some i) (t ++ ' ' :: strip line)
      · simp only [hm]
        have hh : headingIds ad (line :: rest) = ident :: headingIds ad rest := by
          simp [headingIds, List.filterMap_cons, hm]
        rw [hh]
        have h2 := ih (some ident) inline
        simp only [List.map_append, sealRow_ids] at h2
        simp only [List.append_assoc, List.map_append, sealRow_ids, h2]
        simp [Option.toList]


theorem matchClause_some_props (ad : Bool) (s : List Char) (i c2 : List Char)
    (h : matchClause ad s = some (i, c2)) :
    identOK i ∧ ('\n' ∉ c2) := by
  obtain ⟨hshape, hgroups, hnomore⟩ := dotGroups_spec ((s.dropWhile isPySpace).dropWhile isDigit)
  simp only [matchClause] at h
  by_cases hds : (((s.dropWhile isPySpace).takeWhile isDigit).isEmpty = true)
  · rw [if_pos hds] at h; cases h
  · rw [if_neg hds] at h
    have hdsne : (s.dropWhile isPySpace).takeWhile isDigit ≠ [] :=
      fun hnil => hds (by rw [hnil]; rfl)
    obtain ⟨d, ds', hd⟩ : ∃ d ds', (s.dropWhile isPySpace).takeWhile isDigit = d :: ds' := by
      cases hh : (s.dropWhile isPySpace).takeWhile isDigit with
      | nil => exact absurd hh hdsne
      | cons d ds' => exact ⟨d, ds', rfl⟩
    have hcoreOK : identOK ((s.dropWhile isPySpace).takeWhile isDigit ++
        ((dotGroups ((s.dropWhile isPySpace).dropWhile isDigit)).1.map
          (fun g => '.' :: g)).flatten) := by
      refine ⟨by simp [hd], ?_, ?_⟩
      · intro hch hhead
        rw [hd] at hhead
        simp at hhead
        rw [← hhead]
        exact List.mem_takeWhile_imp (l := s.dropWhile isPySpace) (by rw [hd]; simp)
      · intro ch hch
        rcases List.mem_append.mp hch with h1 | h1
        · exact Or.inl (List.mem_takeWhile_imp h1)
        · obtain ⟨l, hl, hch2⟩ := List.mem_flatten.mp h1
          obtain ⟨g, hg, hgl⟩ := List.mem_map.mp hl
          rw [← hgl] at hch2
          rcases List.mem_cons.mp hch2 with h2 | h2
          · exact Or.inr h2
          · exact Or.inl ((hgroups g hg).2 ch h2)
    have hnl : ∀ (z : List Char),
        ('\n' : Char) ∉ (z.dropWhile isPySpace).takeWhile (fun c => !(c == '\n')) := by
      intro z hmem
      have := List.mem_takeWhile_imp hmem
      simp at this
    by_cases had : ((ad && ((dotGroups ((s.dropWhile isPySpace).dropWhile isDigit)).2.head? ==
        some '.')) = true)
    · rw [if_pos had] at h
      by_cases hws : ((((dotGroups ((s.dropWhile isPySpace).dropWhile isDigit)).2.tail.takeWhile
          isPySpace)).isEmpty = true)
      · rw [if_pos hws] at h; cases h
      · rw [if_neg hws] at h
        injection h with h2
        injection h2 with hi hc2
        constructor
        · rw [← hi]
          refine ⟨by simp, ?_, ?_⟩
          · intro hch hhead
            rw [hd] at hhead
            simp at hhead
            rw [← hhead]
            exact List.mem_takeWhile_imp (l := s.dropWhile isPySpace) (by rw [hd]; simp)
          · intro ch hch
            rcases List.mem_append.mp hch with h1 | h1
            · exact (hcoreOK.2.2) ch h1
            · simp at h1
              exact Or.inr h1
        · rw [← hc2]
          exact hnl _
    · rw [if_neg had] at h
      by_cases hws : ((((dotGroups ((s.dropWhile isPySpace).dropWhile isDigit)).2.takeWhile
          isPySpace)).isEmpty = true)
      · rw [if_pos hws] at h; cases h
      · rw [if_neg hws] at h
        injection h with h2
        injection h2 with hi hc2
        constructor
        · rw [← hi]; exact hcoreOK
        · rw [← hc2]
          exact hnl _

theorem no_newline_strip (l : List Char) (h : ('\n' : Char) ∉ l) :
    ('\n' : Char) ∉ strip l :=
  fun hmem => h (mem_strip l '\n' hmem)

theorem no_newline_cont (t l : List Char) (ht : ('\n' : Char) ∉ t)
    (hl : ('\n' : Char) ∉ l) : ('\n' : Char) ∉ (t ++ ' ' :: strip l) := by
  intro hmem
  rcases List.mem_append.mp hmem with h1 | h1
  · exact ht h1
  · rcases List.mem_cons.mp h1 with h2 | h2
    · cases h2
    · exact no_newline_strip l hl h2

theorem sealRow_rowOK (c : Option (List Char)) (t : List Char)
    (hc : ∀ i, c = some i → identOK i) (ht : ('\n' : Char) ∉ t) :
    ∀ r ∈ sealRow c t, rowOK r := by
  cases c with
  | none => intro r hr; cases hr
  | some i =>
    intro r hr
    rcases List.mem_cons.mp hr with h1 | h1
    · rw [h1]
      exact ⟨hc i rfl, strip_strip t, no_newline_strip t ht, rfl⟩
    · cases h1

theorem runLines_inv (ad : Bool) (lines : List (List Char)) :
    ∀ (c : Option (List Char)) (t : List Char),
    (∀ i, c = some i → identOK i) → (('\n' : Char) ∉ t) →
    (∀ l ∈ lines, ('\n' : Char) ∉ l) →
    ((∀ i, (runLines ad c t lines).1.1 = some i → identOK i) ∧
     (('\n' : Char) ∉ (runLines ad c t lines).1.2) ∧
     ∀ r ∈ (runLines ad c t lines).2, rowOK r) := by
  induction lines with
  | nil => intro c t hc ht _; exact ⟨hc, ht, fun r hr => absurd hr (by simp [runLines_nil])⟩
  | cons line rest ih =>
    intro c t hc ht hlines
    have hline : ('\n' : Char) ∉ line := hlines line (by simp)
    have hrest : ∀ l ∈ rest, ('\n' : Char) ∉ l := fun l hl => hlines l (by simp [hl])
    rw [runLines_cons]
    by_cases hb : ((strip line).isEmpty = true)
    · rw [if_pos hb]
      exact ih c t hc ht hrest
    · rw [if_neg hb]
      rcases hm : matchClause ad (strip line) with _ | ⟨ident, inline⟩
      · simp only [hm]
        cases c with
        | none => exact ih none t hc ht hrest
        | some i =>
          exact ih (some i) (t ++ ' ' :: strip line) hc (no_newline_cont t line ht hline) hrest
      · simp only [hm]
        obtain ⟨hiOK, hinl⟩ := matchClause_some_props ad (strip line) ident inline hm
        obtain ⟨ih1, ih2, ih3⟩ := ih (some ident) inline
          (fun j hj => by injection hj with hj2; rw [← hj2]; exact hiOK) hinl hrest
        refine ⟨ih1, ih2, ?_⟩
        intro r hr
        rcases List.mem_append.mp hr with h1 | h1
        · exact sealRow_rowOK c t hc ht r h1
        · exact ih3 r h1

theorem allLines_no_newline (pages : List (List Char)) :
    ∀ l ∈ allLines pages, ('\n' : Char) ∉ l := by
  intro l hl
  obtain ⟨ls, hls, hl2⟩ := List.mem_flatten.mp hl
  obtain ⟨page, _, hpage⟩ := List.mem_map.mp hls
  intro hmem
  have := mem_splitlines_no_break page l (by rw [hpage]; exact hl2) '\n' hmem
  simp [isLineBreak] at this

theorem processPages_rowOK (ad : Bool) (pages : List (List Char)) :
    ∀ r ∈ processPages ad pages, rowOK r := by
  intro r hr
  rw [processPages_eq_processStream] at hr
  simp only [processStream] at hr
  obtain ⟨h1, h2, h3⟩ := runLines_inv ad (allLines pages) none []
    (fun i hi => by cases hi) (by simp) (allLines_no_newline pages)
  rcases List.mem_append.mp hr with hx | hx
  · exact h3 r hx
  · exact sealRow_rowOK _ _ h1 h2 r hx


theorem matchClause_agree (s : List Char) (h : trailingDotHeading s = false) :
    matchClause true s = matchClause false s := by
  simp only [trailingDotHeading] at h
  simp only [matchClause]
  by_cases hds : (((s.dropWhile isPySpace).takeWhile isDigit).isEmpty = true)
  · rw [if_pos hds, if_pos hds]
  · rw [if_neg hds, if_neg hds]
    rw [if_neg hds] at h
    by_cases hdot : (((dotGroups ((s.dropWhile isPySpace).dropWhile isDigit)).2.head? ==
        some '.') = true)
    · have hws : (((dotGroups ((s.dropWhile isPySpace).dropWhile isDigit)).2.tail.takeWhile
          isPySpace).isEmpty = true) := by
        rw [hdot] at h
        simpa using h
      obtain ⟨r, hq2⟩ : ∃ r,
          (dotGroups ((s.dropWhile isPySpace).dropWhile isDigit)).2 = '.' :: r := by
        rcases hq : (dotGroups ((s.dropWhile isPySpace).dropWhile isDigit)).2 with _ | ⟨ch, r⟩
        · rw [hq] at hdot; simp at hdot
        · rw [hq] at hdot
          simp at hdot
          exact ⟨r, by rw [hdot]⟩
      rw [if_pos (show ((true && ((dotGroups ((s.dropWhile isPySpace).dropWhile
          isDigit)).2.head? == some '.')) = true) by rw [hdot]; rfl)]
      rw [if_neg (show ¬((false && ((dotGroups ((s.dropWhile isPySpace).dropWhile
          isDigit)).2.head? == some '.')) = true) by simp)]
      rw [if_pos hws]
      have hq2ws : (((dotGroups ((s.dropWhile isPySpace).dropWhile
          isDigit)).2.takeWhile isPySpace).isEmpty = true) := by
        rw [hq2, List.takeWhile_cons, if_neg (by rw [dot_not_space]; simp)]
        rfl
      rw [if_pos hq2ws]
    · rw [if_neg (show ¬((true && ((dotGroups ((s.dropWhile isPySpace).dropWhile
          isDigit)).2.head? == some '.')) = true) by simpa using hdot)]
      rw [if_neg (show ¬((false && ((dotGroups ((s.dropWhile isPySpace).dropWhile
          isDigit)).2.head? == some '.')) = true) by simp)]

theorem refeedOnce_eq (ad : Bool) (ident content : List Char)
    (hstrip : strip content = content)
    (hm : matchClause ad (strip content) = none) :
    refeedOnce ad ident content = [⟨ident, content, []⟩] := by
  simp only [refeedOnce, runLines_cons]
  by_cases hb : ((strip content).isEmpty = true)
  · rw [if_pos hb]
    have hc : content = [] := by rw [← hstrip]; exact List.isEmpty_iff.mp hb
    rw [hc]
    rfl
  · rw [if_neg hb]
    simp only [hm]
    show ([] : List ClauseRow) ++ sealRow (some ident) ([] ++ ' ' :: strip content) = _
    simp only [List.nil_append, sealRow]
    rw [strip_space_cons, hstrip, hstrip]

theorem processPages_ids (ad : Bool) (pages : List (List Char)) :
    (processPages ad pages).map (fun r => r.clause_number) =
      headingIds ad (allLines pages) := by
  rw [processPages_eq_processStream]
  simp only [processStream]
  have := ids_runLines ad (allLines pages) none []
  simpa using this

theorem processStream_discard (ad : Bool) (pre rest : List (List Char))
    (h : ∀ l ∈ pre, matchClause ad (strip l) = none) :
    processStream ad (pre ++ rest) = processStream ad rest := by
  simp only [processStream]
  rw [runLines_append, runLines_no_heading ad pre [] h]
  simp

theorem processPages_no_heading (ad : Bool) (pages : List (List Char))
    (h : ∀ l ∈ allLines pages, matchClause ad (strip l) = none) :
    processPages ad pages = [] := by
  rw [processPages_eq_processStream]
  simp only [processStream]
  rw [runLines_no_heading ad (allLines pages) [] h]
  rfl

theorem processPages_blank_filter (ad : Bool) (pages1 pages2 : List (List Char))
    (h : (allLines pages1).filter (fun l => !(strip l).isEmpty) =
         (allLines pages2).filter (fun l => !(strip l).isEmpty)) :
    processPages ad pages1 = processPages ad pages2 := by
  rw [processPages_eq_processStream, processPages_eq_processStream]
  simp only [processStream]
  rw [runLines_filter_blank ad (allLines pages1), runLines_filter_blank ad (allLines pages2), h]

theorem processPages_agreement (pages : List (List Char))
    (h : ∀ l ∈ allLines pages, trailingDotHeading (strip l) = false) :
    processPages true pages = processPages false pages := by
  rw [processPages_eq_processStream, processPages_eq_processStream]
  simp only [processStream]
  rw [runLines_congr true false (allLines pages)
    (fun l hl => matchClause_agree (strip l) (h l hl))]

end DocClause

/-! ## The claims -/

/-- C1: a line is classified as a heading by the segmenter (under the
spec's canonical rule, the `streamlit_app.py` pattern) iff, after trimming
leading/trailing whitespace, it consists of one or more dot-separated
groups of digits, optionally followed by a single trailing dot, then at
least one whitespace character, then a remainder; a present trailing dot
is captured as part of the emitted identifier, e.g. `"1. Heading"` is a
heading whose identifier is `"1."`. -/
theorem C1_heading_rule :
    (∀ line : List Char,
      DocClause.isHeading true line = true ↔
        DocClause.headingShapeSpec (DocClause.strip line)) ∧
    DocClause.matchClause true (DocClause.strip (("1. Heading").data)) =
      some ((("1.").data), (("Heading").data)) := by
  constructor
  · intro line
    constructor
    · intro h
      exact DocClause.matchClause_isSome_shape true (DocClause.strip line)
        (DocClause.dropWhile_strip line) h
    · intro h
      exact DocClause.shape_matchClause_true (DocClause.strip line) h
  · decide

/-- C2: the depth classifier returns `min(count_of_dot_separators + 1, 4)`
on every identifier exactly as captured (trailing punctuation included);
in particular depth "1" = 1, depth "1.2" = 2, and
depth "1.2.3.4.5" = depth "1.2.3.4" = 4. -/
theorem C2_depth_classifier :
    (∀ ident : List Char, StreamlitApp.level_of ident =
      min (DocClause.count_of_dot_separators ident + 1) 4) ∧
    StreamlitApp.level_of (("1").data) = 1 ∧
    StreamlitApp.level_of (("1.2").data) = 2 ∧
    StreamlitApp.level_of (("1.2.3.4.5").data) = 4 ∧
    StreamlitApp.level_of (("1.2.3.4").data) = 4 :=
  ⟨fun _ => rfl, by decide, by decide, by decide, by decide⟩

/-- C3: re-feeding an emitted record's content as a single continuation
line of a freshly opened clause with the same identifier (so the line is
classified as a continuation, not a heading) reproduces the record with
byte-identical content. -/
theorem C3_content_refeed_roundtrip (ad : Bool) (pages : List (List Char))
    (row : DocClause.ClauseRow) (hrow : row ∈ DocClause.processPages ad pages)
    (hcont : DocClause.matchClause ad (DocClause.strip row.content) = none) :
    DocClause.refeedOnce ad row.clause_number row.content = [row] := by
  obtain ⟨_, hstrip, _, hdesc⟩ := DocClause.processPages_rowOK ad pages row hrow
  rw [DocClause.refeedOnce_eq ad row.clause_number row.content hstrip hcont]
  rw [← hdesc]

/-- Witness for C3: the record emitted for page `"1 Hello\nworld"`
round-trips through re-feeding. -/
theorem C3_witness :
    DocClause.refeedOnce false (("1").data) (("Hello world").data) =
      [⟨("1").data, ("Hello world").data, []⟩] :=
  C3_content_refeed_roundtrip false [("1 Hello\nworld").data]
    ⟨("1").data, ("Hello world").data, []⟩ (by decide) (by decide)

/-- C4: every line before the first heading that fails the heading match
(blank or not) is silently discarded — the result equals that of the same
stream without those lines; in particular
`[["orphan line", "1 Heading", "body"]]` yields exactly
`[("1", "Heading body")]` and "orphan line" appears nowhere. -/
theorem C4_orphan_lines_discarded (ad : Bool) (pre rest : List (List Char))
    (h : ∀ l ∈ pre, DocClause.matchClause ad (DocClause.strip l) = none) :
    DocClause.processStream ad (pre ++ rest) = DocClause.processStream ad rest ∧
    Convert.process_text_pages [("orphan line\n1 Heading\nbody").data] =
      [⟨("1").data, ("Heading body").data, []⟩] :=
  ⟨DocClause.processStream_discard ad pre rest h, by decide⟩

/-- Witness for C4 at the spec's concrete input. -/
theorem C4_witness :
    (DocClause.processStream false
        ([("orphan line").data] ++ [("1 Heading").data, ("body").data]) =
      DocClause.processStream false [("1 Heading").data, ("body").data]) ∧
    Convert.process_text_pages [("orphan line\n1 Heading\nbody").data] =
      [⟨("1").data, ("Heading body").data, []⟩] :=
  C4_orphan_lines_discarded false [("orphan line").data]
    [("1 Heading").data, ("body").data] (by decide)

/-- C5: the segmenter treats the ordered pages as one logical line stream
(no page-boundary reset of the open identifier or accumulated content);
in particular `[["1 Intro"], ["continues here"]]` yields exactly
`[("1", "Intro continues here")]`. -/
theorem C5_cross_page_continuation :
    (∀ (ad : Bool) (pages : List (List Char)),
      DocClause.processPages ad pages =
        DocClause.processStream ad (DocClause.allLines pages)) ∧
    Convert.process_text_pages [("1 Intro").data, ("continues here").data] =
      [⟨("1").data, ("Intro continues here").data, []⟩] :=
  ⟨fun ad pages => DocClause.processPages_eq_processStream ad pages, by decide⟩

/-- C6: segmentation is a total function of its input (the embedding is
purely functional, so no exception can be raised), and whenever no line
matches the heading pattern — including the empty input, empty-string
pages, and pages of only blank or non-matching lines — the result is the
empty sequence of records. -/
theorem C6_no_failure_empty_result (ad : Bool) (pages : List (List Char))
    (h : ∀ l ∈ DocClause.allLines pages,
      DocClause.matchClause ad (DocClause.strip l) = none) :
    DocClause.processPages ad pages = [] ∧
    Convert.process_text_pages [] = [] ∧
    Convert.process_text_pages [[]] = [] ∧
    Convert.process_text_pages [("\n  \n").data, ("hello\nworld").data] = [] :=
  ⟨DocClause.processPages_no_heading ad pages h, by decide, by decide, by decide⟩

/-- Witness for C6 on a page with no heading line. -/
theorem C6_witness :
    DocClause.processPages false [("hello\nworld").data] = [] ∧
    Convert.process_text_pages [] = [] ∧
    Convert.process_text_pages [[]] = [] ∧
    Convert.process_text_pages [("\n  \n").data, ("hello\nworld").data] = [] :=
  C6_no_failure_empty_result false [("hello\nworld").data] (by decide)

/-- C7: output records appear in document-encounter order of their heading
lines — the identifiers are exactly the matched heading identifiers of the
line stream, in order, with no numeric reordering; in particular a "2"
heading seen before a "1" heading is emitted first. -/
theorem C7_order_preservation :
    (∀ (ad : Bool) (pages : List (List Char)),
      (DocClause.processPages ad pages).map (fun r => r.clause_number) =
        DocClause.headingIds ad (DocClause.allLines pages)) ∧
    Convert.process_text_pages [("2 Second\n1 First").data] =
      [⟨("2").data, ("Second").data, []⟩, ⟨("1").data, ("First").data, []⟩] :=
  ⟨fun ad pages => DocClause.processPages_ids ad pages, by decide⟩

/-- C8: two inputs whose line streams agree after removing blank
(whitespace-only) lines segment identically — inserting or removing blank
lines anywhere in any pages never changes the result. -/
theorem C8_blank_line_robustness (ad : Bool) (pages1 pages2 : List (List Char))
    (h : (DocClause.allLines pages1).filter (fun l => !(DocClause.strip l).isEmpty) =
         (DocClause.allLines pages2).filter (fun l => !(DocClause.strip l).isEmpty)) :
    DocClause.processPages ad pages1 = DocClause.processPages ad pages2 :=
  DocClause.processPages_blank_filter ad pages1 pages2 h

/-- Witness for C8: interleaving a blank and a whitespace-only line does
not change the segmentation. -/
theorem C8_witness :
    DocClause.processPages false [("1 A\n\n  \nB").data] =
      DocClause.processPages false [("1 A\nB").data] :=
  C8_blank_line_robustness false [("1 A\n\n  \nB").data] [("1 A\nB").data] (by decide)

/-- C9: the two implementations agree on every input none of whose
non-blank trimmed lines starts with dot-separated digit groups followed by
a trailing dot and then whitespace, and they differ on the input
`["1. Heading"]`: only the `streamlit_app.py` pattern accepts the trailing
dot. -/
theorem C9_impl_divergence (pages : List (List Char))
    (h : ∀ l ∈ DocClause.allLines pages,
      DocClause.trailingDotHeading (DocClause.strip l) = false) :
    StreamlitApp.process_text_pages pages = Convert.process_text_pages pages ∧
    Convert.process_text_pages [("1. Heading").data] = [] ∧
    StreamlitApp.process_text_pages [("1. Heading").data] =
      [⟨("1.").data, ("Heading").data, []⟩] ∧
    Convert.process_text_pages [("1. Heading").data] ≠
      StreamlitApp.process_text_pages [("1. Heading").data] :=
  ⟨DocClause.processPages_agreement pages h, by decide, by decide, by decide⟩

/-- Witness for C9 on an input with no trailing-dot heading line. -/
theorem C9_witness :
    StreamlitApp.process_text_pages [("1 Heading\ntext").data] =
      Convert.process_text_pages [("1 Heading\ntext").data] ∧
    Convert.process_text_pages [("1. Heading").data] = [] ∧
    StreamlitApp.process_text_pages [("1. Heading").data] =
      [⟨("1.").data, ("Heading").data, []⟩] ∧
    Convert.process_text_pages [("1. Heading").data] ≠
      StreamlitApp.process_text_pages [("1. Heading").data] :=
  C9_impl_divergence [("1 Heading\ntext").data] (by decide)

/-- C10: every emitted record has a non-empty identifier that starts with
a digit and consists only of digits and dots, content with no leading or
trailing whitespace and no newline character, and an empty description. -/
theorem C10_record_invariants (ad : Bool) (pages : List (List Char))
    (row : DocClause.ClauseRow) (hrow : row ∈ DocClause.processPages ad pages) :
    row.clause_number ≠ [] ∧
    (∀ h, row.clause_number.head? = some h → DocClause.isDigit h = true) ∧
    (∀ c ∈ row.clause_number, DocClause.isDigit c = true ∨ c = '.') ∧
    DocClause.strip row.content = row.content ∧
    (('\n' : Char) ∉ row.content) ∧
    row.description = [] := by
  obtain ⟨⟨h1, h2, h3⟩, h4, h5, h6⟩ := DocClause.processPages_rowOK ad pages row hrow
  exact ⟨h1, h2, h3, h4, h5, h6⟩

/-- Witness for C10 on the record emitted for page `"1.2 x"`. -/
theorem C10_witness :
    ((("1.2").data : List Char) ≠ []) ∧
    (∀ h, (("1.2").data : List Char).head? = some h → DocClause.isDigit h = true) ∧
    (∀ c ∈ (("1.2").data : List Char), DocClause.isDigit c = true ∨ c = '.') ∧
    DocClause.strip (("x").data) = ("x").data ∧
    (('\n' : Char) ∉ (("x").data : List Char)) ∧
    ([] : List Char) = [] :=
  C10_record_invariants true [("1.2 x").data]
    ⟨("1.2").data, ("x").data, []⟩ (by decide)
